import Mathlib

/-!
Verification of the versionfs repository's version-naming and
version-discovery logic (path codec, timestamp codec, directory scanner).

Strings are embedded as `List Char` (Go strings compared byte-wise; all
comparisons here are over UTF-8, whose byte order coincides with code-point
order). Filesystem access is embedded by passing the directory listing (the
result of os.ReadDir) explicitly.
-/

namespace VersionFS

/-- Go string `<` (lexicographic byte comparison), on code points. -/
def charsLT : List Char → List Char → Bool
  | _, [] => false
  | [], _ :: _ => true
  | a :: as, b :: bs =>
    a.toNat < b.toNat || (a.toNat == b.toNat && charsLT as bs)

/-- Go strings.Split(s, ".") : splits on every dot, never returns an empty
list (Split of the empty string is one empty token). -/
def splitOnDot : List Char → List (List Char)
  | [] => [[]]
  | c :: cs =>
    if c = '.' then [] :: splitOnDot cs
    else
      match splitOnDot cs with
      | [] => [[c]]
      | t :: ts => (c :: t) :: ts

/-- Go strings.Join(tokens, "."). -/
def joinDot : List (List Char) → List Char
  | [] => []
  | [t] => t
  | t :: ts => t ++ '.' :: joinDot ts

/-- Numeric value of a digit character ('0' ↦ 0, …, '9' ↦ 9). -/
def digitVal (c : Char) : Nat := c.toNat - 48

/-- ASCII digit test. -/
def isDigitCh (c : Char) : Bool := 48 ≤ c.toNat && c.toNat ≤ 57

/-- Value of a digit string, most significant digit first. -/
def chunkVal (s : List Char) : Nat := s.foldl (fun a c => a * 10 + digitVal c) 0

/-! ### Timestamp (src/unnamed/part_004, package versionfs)

A Go Timestamp wraps a time.Time; the six calendar fields below are the
data observable through the canonical format "20060102150405". Negative
years and sub-second precision are not modelled (the format drops them). -/

/-- The six calendar components of a wrapped time.Time instant. -/
structure Timestamp where
  year : Nat
  month : Nat
  day : Nat
  hour : Nat
  minute : Nat
  second : Nat
deriving DecidableEq, Repr

/-- Go time.isLeap. -/
def isLeap (y : Nat) : Bool := y % 4 == 0 && (!(y % 100 == 0) || y % 400 == 0)

/-- Go time.daysIn: number of days of a month. -/
def daysIn (year month : Nat) : Nat :=
  if month = 2 then (if isLeap year then 29 else 28)
  else if month = 4 ∨ month = 6 ∨ month = 9 ∨ month = 11 then 30
  else 31

/-- The calendar ranges every real time.Time instant satisfies (what
NewFromTime can wrap, up to the unmodelled negative years). -/
def Valid (t : Timestamp) : Prop :=
  1 ≤ t.month ∧ t.month ≤ 12 ∧ 1 ≤ t.day ∧ t.day ≤ daysIn t.year t.month ∧
    t.hour ≤ 23 ∧ t.minute ≤ 59 ∧ t.second ≤ 59

instance (t : Timestamp) : Decidable (Valid t) := by unfold Valid; infer_instance

/-- Go appendInt(n, 4) for n ≥ 0: zero-pad to four digits, full decimal
expansion when wider. -/
def pad4 (n : Nat) : List Char :=
  if n < 10000 then
    [Nat.digitChar (n / 1000 % 10), Nat.digitChar (n / 100 % 10),
     Nat.digitChar (n / 10 % 10), Nat.digitChar (n % 10)]
  else Nat.toDigits 10 n

/-- Go appendInt(n, 2) for n ≥ 0. -/
def pad2 (n : Nat) : List Char :=
  if n < 100 then [Nat.digitChar (n / 10 % 10), Nat.digitChar (n % 10)]
  else Nat.toDigits 10 n

/-- Timestamp.String(): Format("20060102150405"), the canonical encoding. -/
def Timestamp.toChars (t : Timestamp) : List Char :=
  pad4 t.year ++ pad2 t.month ++ pad2 t.day ++
    pad2 t.hour ++ pad2 t.minute ++ pad2 t.second

/-- The calendar-range validation time.Parse performs after reading the six
numeric fields (month 1–12, day 1–daysIn, hour < 24, minute < 60,
second < 60). -/
def checkRanges (t : Timestamp) : Option Timestamp :=
  if Valid t then some t else none

/-- NewTimestamp: time.Parse("20060102150405", s). The layout consumes a
four-digit year then five two-digit fields (each field all ASCII digits),
requires the whole string consumed, and validates the calendar ranges. -/
def newTimestamp (s : List Char) : Option Timestamp :=
  match s with
  | [y1, y2, y3, y4, a1, a2, b1, b2, c1, c2, d1, d2, e1, e2] =>
    if ([y1, y2, y3, y4, a1, a2, b1, b2, c1, c2, d1, d2, e1, e2].all isDigitCh) then
      checkRanges
        ⟨((digitVal y1 * 10 + digitVal y2) * 10 + digitVal y3) * 10 + digitVal y4,
          digitVal a1 * 10 + digitVal a2, digitVal b1 * 10 + digitVal b2,
          digitVal c1 * 10 + digitVal c2, digitVal d1 * 10 + digitVal d2,
          digitVal e1 * 10 + digitVal e2⟩
    else none
  | _ => none

/-! ### Files, paths and the directory scanner (src/versionfs.go) -/

/-- The File capability: Dir(), Name(), Ext(). -/
structure VFile where
  dir : List Char
  name : List Char
  ext : List Char
deriving DecidableEq, Repr

/-- versionfs.Path (src/versionfs.go:55): "%s/%s.%s.%s" dir name ext ts. -/
def vPath (file : VFile) (version : Timestamp) : List Char :=
  file.dir ++ '/' :: (file.name ++ '.' :: (file.ext ++ '.' :: version.toChars))

/-- The basename portion of vPath (everything after "dir/"). -/
def vBasename (file : VFile) (version : Timestamp) : List Char :=
  file.name ++ '.' :: (file.ext ++ '.' :: version.toChars)

/-- localfs.Path (src/localfs.go:21): "%s/%s.%s.%s" dir name ts ext —
note the timestamp comes before the extension there. -/
def lPath (file : VFile) (version : Timestamp) : List Char :=
  file.dir ++ '/' :: (file.name ++ '.' :: (version.toChars ++ '.' :: file.ext))

/-- A directory entry as returned by os.ReadDir. -/
structure DirEntry where
  name : List Char
  isDir : Bool
deriving DecidableEq, Repr

/-- The five distinguishable Detect failure reasons (src/versionfs.go:267). -/
inductive DetectErr where
  | nameMismatch
  | noDotAfterName
  | tooFewTokens
  | extMismatch
  | badTimestamp
deriving DecidableEq, Repr

/-- VersionFS.Detect (src/versionfs.go:267-306): prefix check, dot after the
name, at least two tokens, exact (joined) extension match, then parse the
last token as the timestamp. -/
def detect (filename : List Char) (file : VFile) : Except DetectErr Timestamp :=
  if file.name.isPrefixOf filename then
    match filename.drop file.name.length with
    | [] => .error .noDotAfterName
    | c :: rest =>
      if c = '.' then
        if (splitOnDot rest).length < 2 then .error .tooFewTokens
        else if joinDot (splitOnDot rest).dropLast = file.ext then
          match newTimestamp ((splitOnDot rest).getLastD []) with
          | some ts => .ok ts
          | none => .error .badTimestamp
        else .error .extMismatch
      else .error .noDotAfterName
  else .error .nameMismatch

/-- The per-entry match of VersionFS.Versions (src/versionfs.go:232-249):
prefix, dot after the name, last dot-token parses as a timestamp. No
extension check and no directory check. (splitOnDot never returns [], so
getLastD models tokens[len(tokens)-1].) -/
def versionFn (file : VFile) (entry : DirEntry) : Option Timestamp :=
  if file.name.isPrefixOf entry.name then
    match entry.name.drop file.name.length with
    | [] => none
    | c :: rest =>
      if c = '.' then newTimestamp ((splitOnDot rest).getLastD [])
      else none
  else none

/-- The per-entry match of VersionFS.Find (src/versionfs.go:342-383):
skips directories, then the full match (prefix, dot, ≥ 2 tokens, exact
extension, timestamp). -/
def findFn (file : VFile) (entry : DirEntry) : Option Timestamp :=
  if entry.isDir then none
  else if file.name.isPrefixOf entry.name then
    match entry.name.drop file.name.length with
    | [] => none
    | c :: rest =>
      if c = '.' then
        if (splitOnDot rest).length < 2 then none
        else if joinDot (splitOnDot rest).dropLast = file.ext then
          newTimestamp ((splitOnDot rest).getLastD [])
        else none
      else none
  else none

/-- Entry order used by both scans: sort.SliceStable with
less(i, j) = name i > name j, i.e. names descending. (os.ReadDir listings
never repeat a name, so stability never matters and an insertion sort under
the reflexive relation below is exactly the Go result.) -/
def entryGE (a b : DirEntry) : Prop := charsLT a.name b.name = false

instance : DecidableRel entryGE := fun a b => by unfold entryGE; infer_instance

/-- The descending-by-name sort both Versions and Find perform. -/
def sortDesc (entries : List DirEntry) : List DirEntry :=
  List.insertionSort entryGE entries

/-- VersionFS.Versions (src/versionfs.go:219-251) applied to a listing. -/
def versionsList (file : VFile) (entries : List DirEntry) : List Timestamp :=
  (sortDesc entries).filterMap (versionFn file)

/-- VersionFS.Find (src/versionfs.go:324-386) applied to a listing. -/
def findList (file : VFile) (entries : List DirEntry) : List Timestamp :=
  (sortDesc entries).filterMap (findFn file)

/-- Outcome of os.ReadDir: a listing, a not-exist error, or another
filesystem error (represented by an opaque code). -/
inductive FsError where
  | notExist
  | other (code : Nat)
deriving DecidableEq, Repr

/-- VersionFS.Versions including its error handling (src/versionfs.go:220-226):
a not-exist listing error yields an empty slice and no error; any other
listing error is propagated. -/
def versionsOp (r : Except FsError (List DirEntry)) (file : VFile) :
    Except FsError (List Timestamp) :=
  match r with
  | .error .notExist => .ok []
  | .error e => .error e
  | .ok entries => .ok (versionsList file entries)

/-- VersionFS.Find including its error handling (src/versionfs.go:325-331). -/
def findOp (r : Except FsError (List DirEntry)) (file : VFile) :
    Except FsError (List Timestamp) :=
  match r with
  | .error .notExist => .ok []
  | .error e => .error e
  | .ok entries => .ok (findList file entries)

/-- Errors of LastVersion: a propagated filesystem error, or the
ErrNoVersions sentinel (src/versionfs.go:160-161). -/
inductive VersionsErr where
  | fs (e : FsError)
  | noVersions
deriving DecidableEq, Repr

/-- VersionFS.LastVersion (src/versionfs.go:195-204): Versions, then the
first element; ErrNoVersions when the sequence is empty. -/
def lastVersionOp (r : Except FsError (List DirEntry)) (file : VFile) :
    Except VersionsErr Timestamp :=
  match versionsOp r file with
  | .error e => .error (.fs e)
  | .ok [] => .error .noVersions
  | .ok (t :: _) => .ok t

/-- Chronological order on instants, at the second resolution the canonical
format exposes. -/
def chronoLT (a b : Timestamp) : Prop :=
  a.year < b.year ∨ (a.year = b.year ∧
    (a.month < b.month ∨ (a.month = b.month ∧
      (a.day < b.day ∨ (a.day = b.day ∧
        (a.hour < b.hour ∨ (a.hour = b.hour ∧
          (a.minute < b.minute ∨ (a.minute = b.minute ∧
            a.second < b.second)))))))))

instance (a b : Timestamp) : Decidable (chronoLT a b) := by
  unfold chronoLT; infer_instance

/-- The spec's acceptance condition for NewTimestamp, stated positionally:
exactly 14 ASCII digits YYYYMMDDHHmmss whose month, day (against the
month and year), hour, minute and second lie in valid calendar ranges. -/
def encodes14 (s : List Char) : Prop :=
  s.length = 14 ∧ (∀ c ∈ s, isDigitCh c = true) ∧
  1 ≤ chunkVal ((s.drop 4).take 2) ∧ chunkVal ((s.drop 4).take 2) ≤ 12 ∧
  1 ≤ chunkVal ((s.drop 6).take 2) ∧
  chunkVal ((s.drop 6).take 2) ≤ daysIn (chunkVal (s.take 4)) (chunkVal ((s.drop 4).take 2)) ∧
  chunkVal ((s.drop 8).take 2) ≤ 23 ∧ chunkVal ((s.drop 10).take 2) ≤ 59 ∧
  chunkVal ((s.drop 12).take 2) ≤ 59

/-! ### Lexicographic order facts -/

theorem charsLT_irrefl : ∀ s : List Char, charsLT s s = false
  | [] => rfl
  | a :: as => by
    simp [charsLT, charsLT_irrefl as]

theorem charsLT_asymm : ∀ s t : List Char, charsLT s t = true → charsLT t s = false
  | _, [], h => by simp [charsLT] at h
  | [], _ :: _, _ => rfl
  | a :: as, b :: bs, h => by
    simp only [charsLT, Bool.or_eq_true, decide_eq_true_eq, Bool.and_eq_true,
      beq_iff_eq] at h ⊢
    rcases h with h | ⟨he, h⟩
    · simp only [Bool.or_eq_false_iff, decide_eq_false_iff_not, Bool.and_eq_false_iff,
        beq_eq_false_iff_ne, ne_eq]
      constructor
      · omega
      · left; omega
    · simp only [Bool.or_eq_false_iff, decide_eq_false_iff_not, Bool.and_eq_false_iff]
      refine ⟨by omega, Or.inr (charsLT_asymm as bs h)⟩

theorem charsLT_cotrans : ∀ s u t : List Char,
    charsLT s t = true → charsLT s u = true ∨ charsLT u t = true
  | _, _, [], h => by simp [charsLT] at h
  | [], [], _ :: _, _ => Or.inr rfl
  | [], _ :: _, _ :: _, _ => Or.inl rfl
  | _ :: _, [], _ :: _, _ => Or.inr rfl
  | a :: as, b :: bs, c :: cs, h => by
    simp only [charsLT, Bool.or_eq_true, decide_eq_true_eq, Bool.and_eq_true,
      beq_iff_eq] at h ⊢
    rcases Nat.lt_trichotomy a.toNat b.toNat with hab | hab | hab
    · exact Or.inl (Or.inl hab)
    · rcases h with h | ⟨he, h⟩
      · exact Or.inr (Or.inl (by omega))
      · rcases charsLT_cotrans as bs cs h with ih | ih
        · exact Or.inl (Or.inr ⟨hab, ih⟩)
        · exact Or.inr (Or.inr ⟨by omega, ih⟩)
    · rcases h with h | ⟨he, h⟩
      · exact Or.inr (Or.inl (by omega))
      · exact Or.inr (Or.inl (by omega))

instance : IsTotal DirEntry entryGE where
  total a b := by
    unfold entryGE
    cases h : charsLT a.name b.name
    · exact Or.inl rfl
    · exact Or.inr (charsLT_asymm _ _ h)

instance : IsTrans DirEntry entryGE where
  trans a b c hab hbc := by
    unfold entryGE at hab hbc ⊢
    cases h : charsLT a.name c.name
    · rfl
    · rcases charsLT_cotrans a.name b.name c.name h with hc | hc
      · rw [hab] at hc; cases hc
      · rw [hbc] at hc; cases hc

theorem charsLT_append_left : ∀ p u v : List Char,
    charsLT (p ++ u) (p ++ v) = charsLT u v
  | [], _, _ => rfl
  | a :: p, u, v => by
    simp [charsLT, charsLT_append_left p u v]

/-! ### splitOnDot / joinDot algebra -/

theorem splitOnDot_ne_nil : ∀ s : List Char, splitOnDot s ≠ []
  | [] => by simp [splitOnDot]
  | c :: cs => by
    unfold splitOnDot
    split
    · simp
    · split <;> simp

theorem splitOnDot_exists (s : List Char) :
    ∃ t ts, splitOnDot s = t :: ts := by
  cases h : splitOnDot s with
  | nil => exact absurd h (splitOnDot_ne_nil s)
  | cons t ts => exact ⟨t, ts, rfl⟩

theorem splitOnDot_append : ∀ a b : List Char,
    splitOnDot (a ++ '.' :: b) = splitOnDot a ++ splitOnDot b
  | [], b => by simp [splitOnDot]
  | c :: cs, b => by
    by_cases hc : c = '.'
    · simp [splitOnDot, hc, splitOnDot_append cs b]
    · obtain ⟨t, ts, h⟩ := splitOnDot_exists cs
      have h2 := splitOnDot_append cs b
      rw [h] at h2
      simp [splitOnDot, hc, h, h2]

theorem splitOnDot_no_dot : ∀ s : List Char, (∀ c ∈ s, c ≠ '.') → splitOnDot s = [s]
  | [], _ => rfl
  | c :: cs, h => by
    have hc : c ≠ '.' := h c (List.mem_cons_self c cs)
    have ih := splitOnDot_no_dot cs (fun x hx => h x (List.mem_cons_of_mem c hx))
    simp [splitOnDot, hc, ih]

theorem joinDot_splitOnDot : ∀ s : List Char, joinDot (splitOnDot s) = s
  | [] => rfl
  | c :: cs => by
    obtain ⟨t, ts, h⟩ := splitOnDot_exists cs
    have ih := joinDot_splitOnDot cs
    by_cases hc : c = '.'
    · subst hc
      rw [show splitOnDot ('.' :: cs) = [] :: splitOnDot cs from by simp [splitOnDot]]
      rw [h] at ih ⊢
      cases ts <;> simp_all [joinDot]
    · rw [show splitOnDot (c :: cs) = (c :: t) :: ts from by simp [splitOnDot, hc, h]]
      rw [h] at ih
      cases ts <;> simp_all [joinDot]

/-! ### Digit and chunk arithmetic -/

theorem digit_facts : ∀ k, k < 10 →
    isDigitCh (Nat.digitChar k) = true ∧ digitVal (Nat.digitChar k) = k := by decide

theorem digitVal_digitChar_mod (n : Nat) :
    digitVal (Nat.digitChar (n % 10)) = n % 10 :=
  (digit_facts _ (Nat.mod_lt n (by omega))).2

theorem isDigitCh_digitChar_mod (n : Nat) :
    isDigitCh (Nat.digitChar (n % 10)) = true :=
  (digit_facts _ (Nat.mod_lt n (by omega))).1

theorem digitVal_le_of_digit {c : Char} (h : isDigitCh c = true) : digitVal c ≤ 9 := by
  simp only [isDigitCh, Bool.and_eq_true, decide_eq_true_eq] at h
  unfold digitVal
  omega

theorem chunkVal_aux : ∀ (s : List Char) (a : Nat),
    s.foldl (fun x c => x * 10 + digitVal c) a = a * 10 ^ s.length + chunkVal s
  | [], a => by simp [chunkVal]
  | c :: cs, a => by
    have h1 := chunkVal_aux cs (a * 10 + digitVal c)
    have h2 := chunkVal_aux cs (digitVal c)
    simp only [List.foldl_cons, List.length_cons, chunkVal] at h1 h2 ⊢
    rw [h1, show (0 : Nat) * 10 + digitVal c = digitVal c from by omega, h2]
    ring

theorem chunkVal_cons (c : Char) (s : List Char) :
    chunkVal (c :: s) = digitVal c * 10 ^ s.length + chunkVal s := by
  have := chunkVal_aux s (digitVal c)
  simp only [chunkVal, List.foldl_cons]
  rw [show (0 : Nat) * 10 + digitVal c = digitVal c from by omega, this]
  rfl

theorem chunkVal_lt_pow : ∀ s : List Char, (∀ c ∈ s, isDigitCh c = true) →
    chunkVal s < 10 ^ s.length
  | [], _ => by simp [chunkVal]
  | c :: cs, h => by
    have hc : digitVal c ≤ 9 := digitVal_le_of_digit (h c (List.mem_cons_self c cs))
    have ih := chunkVal_lt_pow cs (fun x hx => h x (List.mem_cons_of_mem c hx))
    rw [chunkVal_cons, List.length_cons, pow_succ]
    have : digitVal c * 10 ^ cs.length ≤ 9 * 10 ^ cs.length :=
      Nat.mul_le_mul_right _ hc
    omega

theorem pad4_eq (n : Nat) (h : n ≤ 9999) :
    pad4 n = [Nat.digitChar (n / 1000 % 10), Nat.digitChar (n / 100 % 10),
      Nat.digitChar (n / 10 % 10), Nat.digitChar (n % 10)] := by
  rw [pad4, if_pos (by omega)]

theorem pad2_eq (n : Nat) (h : n ≤ 99) :
    pad2 n = [Nat.digitChar (n / 10 % 10), Nat.digitChar (n % 10)] := by
  rw [pad2, if_pos (by omega)]

theorem pad4_digits (n : Nat) (h : n ≤ 9999) : ∀ c ∈ pad4 n, isDigitCh c = true := by
  rw [pad4_eq n h]
  intro c hc
  simp only [List.mem_cons, List.not_mem_nil, or_false] at hc
  rcases hc with rfl | rfl | rfl | rfl <;> exact isDigitCh_digitChar_mod _

theorem pad2_digits (n : Nat) (h : n ≤ 99) : ∀ c ∈ pad2 n, isDigitCh c = true := by
  rw [pad2_eq n h]
  intro c hc
  simp only [List.mem_cons, List.not_mem_nil, or_false] at hc
  rcases hc with rfl | rfl <;> exact isDigitCh_digitChar_mod _

theorem chunkVal_pad4 (n : Nat) (h : n ≤ 9999) : chunkVal (pad4 n) = n := by
  rw [pad4_eq n h]
  simp only [chunkVal, List.foldl_cons, List.foldl_nil, digitVal_digitChar_mod]
  omega

theorem chunkVal_pad2 (n : Nat) (h : n ≤ 99) : chunkVal (pad2 n) = n := by
  rw [pad2_eq n h]
  simp only [chunkVal, List.foldl_cons, List.foldl_nil, digitVal_digitChar_mod]
  omega

theorem daysIn_le_31 (y m : Nat) : daysIn y m ≤ 31 := by
  unfold daysIn
  split_ifs <;> omega

/-- The calendar ranges force every component of a valid timestamp below
100, so each prints as exactly two digits (year four). -/
theorem Valid.bounds {t : Timestamp} (h : Valid t) :
    t.month ≤ 99 ∧ t.day ≤ 99 ∧ t.hour ≤ 99 ∧ t.minute ≤ 99 ∧ t.second ≤ 99 := by
  obtain ⟨h1, h2, h3, h4, h5, h6, h7⟩ := h
  have := daysIn_le_31 t.year t.month
  omega

theorem toChars_length {t : Timestamp} (hv : Valid t) (hy : t.year ≤ 9999) :
    t.toChars.length = 14 := by
  obtain ⟨b1, b2, b3, b4, b5⟩ := hv.bounds
  rw [Timestamp.toChars, pad4_eq _ hy, pad2_eq _ b1, pad2_eq _ b2, pad2_eq _ b3,
    pad2_eq _ b4, pad2_eq _ b5]
  rfl

theorem toChars_digits {t : Timestamp} (hv : Valid t) (hy : t.year ≤ 9999) :
    ∀ c ∈ t.toChars, isDigitCh c = true := by
  obtain ⟨b1, b2, b3, b4, b5⟩ := hv.bounds
  rw [Timestamp.toChars]
  intro c hc
  simp only [List.mem_append] at hc
  rcases hc with ((((hc | hc) | hc) | hc) | hc) | hc
  · exact pad4_digits _ hy c hc
  · exact pad2_digits _ b1 c hc
  · exact pad2_digits _ b2 c hc
  · exact pad2_digits _ b3 c hc
  · exact pad2_digits _ b4 c hc
  · exact pad2_digits _ b5 c hc

/-! ### Parse/format round trip -/

theorem digitChar_eq_ofNat : ∀ k, k < 10 → Nat.digitChar k = Char.ofNat (48 + k) := by
  decide

theorem digitChar_digitVal {c : Char} (h : isDigitCh c = true) :
    Nat.digitChar (digitVal c) = c := by
  simp only [isDigitCh, Bool.and_eq_true, decide_eq_true_eq] at h
  rw [digitChar_eq_ofNat _ (by unfold digitVal; omega),
    show 48 + digitVal c = c.toNat from by unfold digitVal; omega]
  exact Char.ofNat_toNat c

theorem newTimestamp_pads (y mo d h mi s : Nat) (hy : y ≤ 9999) (hmo : mo ≤ 99)
    (hd : d ≤ 99) (hh : h ≤ 99) (hmi : mi ≤ 99) (hs : s ≤ 99) :
    newTimestamp (pad4 y ++ pad2 mo ++ pad2 d ++ pad2 h ++ pad2 mi ++ pad2 s) =
      checkRanges ⟨y, mo, d, h, mi, s⟩ := by
  rw [pad4_eq _ hy, pad2_eq _ hmo, pad2_eq _ hd, pad2_eq _ hh, pad2_eq _ hmi,
    pad2_eq _ hs]
  simp only [List.cons_append, List.nil_append, newTimestamp, List.all_cons,
    List.all_nil, isDigitCh_digitChar_mod, Bool.and_self, if_true,
    digitVal_digitChar_mod]
  rw [show ((y / 1000 % 10 * 10 + y / 100 % 10) * 10 + y / 10 % 10) * 10 + y % 10 = y
      from by omega,
    show mo / 10 % 10 * 10 + mo % 10 = mo from by omega,
    show d / 10 % 10 * 10 + d % 10 = d from by omega,
    show h / 10 % 10 * 10 + h % 10 = h from by omega,
    show mi / 10 % 10 * 10 + mi % 10 = mi from by omega,
    show s / 10 % 10 * 10 + s % 10 = s from by omega]

theorem newTimestamp_toChars {t : Timestamp} (hv : Valid t) (hy : t.year ≤ 9999) :
    newTimestamp t.toChars = some t := by
  obtain ⟨b1, b2, b3, b4, b5⟩ := hv.bounds
  rw [Timestamp.toChars, newTimestamp_pads _ _ _ _ _ _ hy b1 b2 b3 b4 b5,
    checkRanges, if_pos (show Valid t from hv)]

theorem newTimestamp_none_of_length {s : List Char} (h : s.length ≠ 14) :
    newTimestamp s = none := by
  unfold newTimestamp
  split
  · simp at h
  · rfl

theorem cons_of_len {α : Type} (s : List α) (n : Nat) (h : s.length = n + 1) :
    ∃ c t, s = c :: t ∧ t.length = n := by
  cases s with
  | nil => simp at h
  | cons c t => exact ⟨c, t, rfl, by simpa using h⟩

theorem exists14 (s : List Char) (h : s.length = 14) :
    ∃ c1 c2 c3 c4 c5 c6 c7 c8 c9 c10 c11 c12 c13 c14,
      s = [c1, c2, c3, c4, c5, c6, c7, c8, c9, c10, c11, c12, c13, c14] := by
  obtain ⟨c1, s, rfl, h1⟩ := cons_of_len s 13 (by omega)
  obtain ⟨c2, s, rfl, h2⟩ := cons_of_len s 12 (by omega)
  obtain ⟨c3, s, rfl, h3⟩ := cons_of_len s 11 (by omega)
  obtain ⟨c4, s, rfl, h4⟩ := cons_of_len s 10 (by omega)
  obtain ⟨c5, s, rfl, h5⟩ := cons_of_len s 9 (by omega)
  obtain ⟨c6, s, rfl, h6⟩ := cons_of_len s 8 (by omega)
  obtain ⟨c7, s, rfl, h7⟩ := cons_of_len s 7 (by omega)
  obtain ⟨c8, s, rfl, h8⟩ := cons_of_len s 6 (by omega)
  obtain ⟨c9, s, rfl, h9⟩ := cons_of_len s 5 (by omega)
  obtain ⟨c10, s, rfl, h10⟩ := cons_of_len s 4 (by omega)
  obtain ⟨c11, s, rfl, h11⟩ := cons_of_len s 3 (by omega)
  obtain ⟨c12, s, rfl, h12⟩ := cons_of_len s 2 (by omega)
  obtain ⟨c13, s, rfl, h13⟩ := cons_of_len s 1 (by omega)
  obtain ⟨c14, s, rfl, h14⟩ := cons_of_len s 0 (by omega)
  obtain rfl := List.length_eq_zero.mp h14
  exact ⟨c1, c2, c3, c4, c5, c6, c7, c8, c9, c10, c11, c12, c13, c14, rfl⟩

theorem newTimestamp_some {s : List Char} {t : Timestamp}
    (h : newTimestamp s = some t) :
    s.length = 14 ∧ (∀ c ∈ s, isDigitCh c = true) ∧ Valid t ∧ t.year ≤ 9999 ∧
      t.toChars = s := by
  unfold newTimestamp at h
  split at h
  · next y1 y2 y3 y4 a1 a2 b1 b2 c1 c2 d1 d2 e1 e2 =>
    split_ifs at h with hdig
    unfold checkRanges at h
    split_ifs at h with hval
    · obtain rfl := (Option.some.inj h).symm
      simp only [List.all_cons, List.all_nil, Bool.and_eq_true, Bool.and_true] at hdig
      obtain ⟨g1, g2, g3, g4, g5, g6, g7, g8, g9, g10, g11, g12, g13, g14⟩ := hdig
      have k1 := digitVal_le_of_digit g1
      have k2 := digitVal_le_of_digit g2
      have k3 := digitVal_le_of_digit g3
      have k4 := digitVal_le_of_digit g4
      have k5 := digitVal_le_of_digit g5
      have k6 := digitVal_le_of_digit g6
      have k7 := digitVal_le_of_digit g7
      have k8 := digitVal_le_of_digit g8
      have k9 := digitVal_le_of_digit g9
      have k10 := digitVal_le_of_digit g10
      have k11 := digitVal_le_of_digit g11
      have k12 := digitVal_le_of_digit g12
      have k13 := digitVal_le_of_digit g13
      have k14 := digitVal_le_of_digit g14
      refine ⟨rfl, ?_, hval, ?_, ?_⟩
      · intro c hc
        simp only [List.mem_cons, List.not_mem_nil, or_false] at hc
        rcases hc with rfl | rfl | rfl | rfl | rfl | rfl | rfl | rfl | rfl | rfl |
          rfl | rfl | rfl | rfl <;> assumption
      · show ((digitVal y1 * 10 + digitVal y2) * 10 + digitVal y3) * 10 +
          digitVal y4 ≤ 9999
        omega
      · show Timestamp.toChars _ = _
        rw [Timestamp.toChars]
        rw [show Timestamp.year _ = ((digitVal y1 * 10 + digitVal y2) * 10 +
            digitVal y3) * 10 + digitVal y4 from rfl,
          show Timestamp.month _ = digitVal a1 * 10 + digitVal a2 from rfl,
          show Timestamp.day _ = digitVal b1 * 10 + digitVal b2 from rfl,
          show Timestamp.hour _ = digitVal c1 * 10 + digitVal c2 from rfl,
          show Timestamp.minute _ = digitVal d1 * 10 + digitVal d2 from rfl,
          show Timestamp.second _ = digitVal e1 * 10 + digitVal e2 from rfl]
        rw [pad4_eq _ (by omega), pad2_eq _ (by omega), pad2_eq _ (by omega),
          pad2_eq _ (by omega), pad2_eq _ (by omega), pad2_eq _ (by omega)]
        rw [show (((digitVal y1 * 10 + digitVal y2) * 10 + digitVal y3) * 10 +
              digitVal y4) / 1000 % 10 = digitVal y1 from by omega,
          show (((digitVal y1 * 10 + digitVal y2) * 10 + digitVal y3) * 10 +
              digitVal y4) / 100 % 10 = digitVal y2 from by omega,
          show (((digitVal y1 * 10 + digitVal y2) * 10 + digitVal y3) * 10 +
              digitVal y4) / 10 % 10 = digitVal y3 from by omega,
          show (((digitVal y1 * 10 + digitVal y2) * 10 + digitVal y3) * 10 +
              digitVal y4) % 10 = digitVal y4 from by omega,
          show (digitVal a1 * 10 + digitVal a2) / 10 % 10 = digitVal a1 from by omega,
          show (digitVal a1 * 10 + digitVal a2) % 10 = digitVal a2 from by omega,
          show (digitVal b1 * 10 + digitVal b2) / 10 % 10 = digitVal b1 from by omega,
          show (digitVal b1 * 10 + digitVal b2) % 10 = digitVal b2 from by omega,
          show (digitVal c1 * 10 + digitVal c2) / 10 % 10 = digitVal c1 from by omega,
          show (digitVal c1 * 10 + digitVal c2) % 10 = digitVal c2 from by omega,
          show (digitVal d1 * 10 + digitVal d2) / 10 % 10 = digitVal d1 from by omega,
          show (digitVal d1 * 10 + digitVal d2) % 10 = digitVal d2 from by omega,
          show (digitVal e1 * 10 + digitVal e2) / 10 % 10 = digitVal e1 from by omega,
          show (digitVal e1 * 10 + digitVal e2) % 10 = digitVal e2 from by omega]
        rw [digitChar_digitVal g1, digitChar_digitVal g2, digitChar_digitVal g3,
          digitChar_digitVal g4, digitChar_digitVal g5, digitChar_digitVal g6,
          digitChar_digitVal g7, digitChar_digitVal g8, digitChar_digitVal g9,
          digitChar_digitVal g10, digitChar_digitVal g11, digitChar_digitVal g12,
          digitChar_digitVal g13, digitChar_digitVal g14]
        rfl
  · cases h
/-! ### Lexicographic comparison of fixed-width digit strings -/

theorem chunkVal_append (u v : List Char) :
    chunkVal (u ++ v) = chunkVal u * 10 ^ v.length + chunkVal v := by
  simp only [chunkVal, List.foldl_append]
  exact chunkVal_aux v _

theorem pad4_length (n : Nat) (h : n ≤ 9999) : (pad4 n).length = 4 := by
  rw [pad4_eq _ h]; rfl

theorem pad2_length (n : Nat) (h : n ≤ 99) : (pad2 n).length = 2 := by
  rw [pad2_eq _ h]; rfl

theorem charsLT_iff_chunkVal : ∀ u v : List Char, u.length = v.length →
    (∀ c ∈ u, isDigitCh c = true) → (∀ c ∈ v, isDigitCh c = true) →
    (charsLT u v = true ↔ chunkVal u < chunkVal v)
  | [], [], _, _, _ => by simp [charsLT, chunkVal]
  | [], _ :: _, h, _, _ => by simp at h
  | _ :: _, [], h, _, _ => by simp at h
  | a :: as, b :: bs, h, hu, hv => by
    have hlen : as.length = bs.length := by simpa using h
    have ha : isDigitCh a = true := hu a (by simp)
    have hb : isDigitCh b = true := hv b (by simp)
    have hu2 : ∀ c ∈ as, isDigitCh c = true := fun c hc => hu c (by simp [hc])
    have hv2 : ∀ c ∈ bs, isDigitCh c = true := fun c hc => hv c (by simp [hc])
    have ih := charsLT_iff_chunkVal as bs hlen hu2 hv2
    have bas : chunkVal as < 10 ^ bs.length := by
      rw [← hlen]; exact chunkVal_lt_pow as hu2
    have bbs : chunkVal bs < 10 ^ bs.length := chunkVal_lt_pow bs hv2
    simp only [isDigitCh, Bool.and_eq_true, decide_eq_true_eq] at ha hb
    rw [chunkVal_cons, chunkVal_cons, hlen]
    simp only [charsLT, Bool.or_eq_true, decide_eq_true_eq, Bool.and_eq_true,
      beq_iff_eq]
    constructor
    · rintro (hlt | ⟨heq, hl⟩)
      · have hd : digitVal a + 1 ≤ digitVal b := by unfold digitVal; omega
        have hstep : digitVal a * 10 ^ bs.length + 10 ^ bs.length ≤
            digitVal b * 10 ^ bs.length := by
          calc digitVal a * 10 ^ bs.length + 10 ^ bs.length
              = (digitVal a + 1) * 10 ^ bs.length := by ring
            _ ≤ digitVal b * 10 ^ bs.length := Nat.mul_le_mul_right _ hd
        omega
      · have hd : digitVal a = digitVal b := by unfold digitVal; omega
        have := ih.mp hl
        rw [hd]
        omega
    · intro hlt
      rcases Nat.lt_trichotomy a.toNat b.toNat with hc | hc | hc
      · exact Or.inl hc
      · refine Or.inr ⟨hc, ih.mpr ?_⟩
        have hd : digitVal a = digitVal b := by unfold digitVal; omega
        rw [hd] at hlt
        omega
      · exfalso
        have hd : digitVal b + 1 ≤ digitVal a := by unfold digitVal; omega
        have hstep : digitVal b * 10 ^ bs.length + 10 ^ bs.length ≤
            digitVal a * 10 ^ bs.length := by
          calc digitVal b * 10 ^ bs.length + 10 ^ bs.length
              = (digitVal b + 1) * 10 ^ bs.length := by ring
            _ ≤ digitVal a * 10 ^ bs.length := Nat.mul_le_mul_right _ hd
        omega

theorem chunkVal_toChars {t : Timestamp} (hv : Valid t) (hy : t.year ≤ 9999) :
    chunkVal t.toChars =
      ((((t.year * 100 + t.month) * 100 + t.day) * 100 + t.hour) * 100 +
        t.minute) * 100 + t.second := by
  obtain ⟨b1, b2, b3, b4, b5⟩ := hv.bounds
  rw [Timestamp.toChars, chunkVal_append, chunkVal_append, chunkVal_append,
    chunkVal_append, chunkVal_append, chunkVal_pad4 _ hy, chunkVal_pad2 _ b1,
    chunkVal_pad2 _ b2, chunkVal_pad2 _ b3, chunkVal_pad2 _ b4, chunkVal_pad2 _ b5,
    pad2_length _ b1, pad2_length _ b2, pad2_length _ b3, pad2_length _ b4,
    pad2_length _ b5]
  norm_num

/-- Fixed-width canonical strings compare lexicographically exactly as the
underlying instants compare chronologically — for years up to 9999. -/
theorem charsLT_toChars_iff {a b : Timestamp} (hva : Valid a) (hvb : Valid b)
    (hya : a.year ≤ 9999) (hyb : b.year ≤ 9999) :
    (charsLT a.toChars b.toChars = true ↔ chronoLT a b) := by
  rw [charsLT_iff_chunkVal _ _
      (by rw [toChars_length hva hya, toChars_length hvb hyb])
      (toChars_digits hva hya) (toChars_digits hvb hyb),
    chunkVal_toChars hva hya, chunkVal_toChars hvb hyb]
  obtain ⟨a1, a2, a3, a4, a5⟩ := hva.bounds
  obtain ⟨c1, c2, c3, c4, c5⟩ := hvb.bounds
  unfold chronoLT
  constructor <;> intro h <;> omega

/-! ### Scanner lemmas -/

theorem isPrefixOf_append : ∀ p r : List Char, p.isPrefixOf (p ++ r) = true
  | [], _ => by simp [List.isPrefixOf]
  | c :: p, r => by simp [List.isPrefixOf, isPrefixOf_append p r]

theorem digit_ne_dot {c : Char} (h : isDigitCh c = true) : c ≠ '.' := by
  intro hc
  subst hc
  simp [isDigitCh] at h

theorem toChars_no_dot {t : Timestamp} (hv : Valid t) (hy : t.year ≤ 9999) :
    ∀ c ∈ t.toChars, c ≠ '.' :=
  fun c hc => digit_ne_dot (toChars_digits hv hy c hc)

/-- The token list of everything after "name." in a constructed filename
"name.mid.timestamp": the timestamp is always the final token, whatever
mid contains. -/
theorem splitOnDot_mid_ts (mid ts : List Char) (hts : ∀ c ∈ ts, c ≠ '.') :
    splitOnDot (mid ++ '.' :: ts) = splitOnDot mid ++ [ts] := by
  rw [splitOnDot_append, splitOnDot_no_dot ts hts]

theorem detect_basename (f : VFile) (t : Timestamp) (hv : Valid t)
    (hy : t.year ≤ 9999) : detect (vBasename f t) f = .ok t := by
  unfold detect vBasename
  rw [if_pos (isPrefixOf_append _ _), List.drop_left]
  simp only [reduceIte]
  rw [splitOnDot_mid_ts _ _ (toChars_no_dot hv hy)]
  obtain ⟨e, es, he⟩ := splitOnDot_exists f.ext
  rw [if_neg (by rw [he]; simp)]
  rw [if_pos (by rw [List.dropLast_concat, joinDot_splitOnDot])]
  rw [List.getLastD_concat, newTimestamp_toChars hv hy]

theorem versionFn_mk (f : VFile) (mid : List Char) (t : Timestamp) (b : Bool)
    (hv : Valid t) (hy : t.year ≤ 9999) :
    versionFn f ⟨f.name ++ '.' :: (mid ++ '.' :: t.toChars), b⟩ = some t := by
  unfold versionFn
  rw [if_pos (isPrefixOf_append _ _)]
  simp only [List.drop_left]
  simp only [reduceIte]
  rw [splitOnDot_mid_ts _ _ (toChars_no_dot hv hy), List.getLastD_concat,
    newTimestamp_toChars hv hy]

/-- Find accepts only what Versions accepts, with the same timestamp. -/
theorem findFn_imp_versionFn (f : VFile) (e : DirEntry) (t : Timestamp)
    (h : findFn f e = some t) : versionFn f e = some t := by
  unfold findFn at h
  unfold versionFn
  split_ifs at h with hdir hpre
  rw [if_pos hpre]
  split at h
  · cases h
  · next c rest =>
    split_ifs at h with hdot hlen hext
    rw [if_pos hdot]
    exact h

theorem filterMap_sublist {α β : Type} (g g2 : α → Option β)
    (hgg : ∀ x t, g x = some t → g2 x = some t) :
    ∀ l : List α, List.Sublist (l.filterMap g) (l.filterMap g2)
  | [] => List.Sublist.refl _
  | x :: l => by
    rw [List.filterMap_cons, List.filterMap_cons]
    cases hgx : g x with
    | none =>
      cases hg2x : g2 x with
      | none => exact filterMap_sublist g g2 hgg l
      | some y => exact List.Sublist.cons y (filterMap_sublist g g2 hgg l)
    | some t =>
      rw [hgg x t hgx]
      exact List.Sublist.cons₂ t (filterMap_sublist g g2 hgg l)

theorem charsLT_connex : ∀ s t : List Char,
    charsLT s t = false → charsLT t s = false → s = t
  | [], [], _, _ => rfl
  | [], _ :: _, h, _ => by simp [charsLT] at h
  | _ :: _, [], _, h => by simp [charsLT] at h
  | a :: as, b :: bs, h1, h2 => by
    simp only [charsLT, Bool.or_eq_false_iff, decide_eq_false_iff_not,
      Bool.and_eq_false_iff, beq_eq_false_iff_ne, ne_eq] at h1 h2
    obtain ⟨h1a, h1b⟩ := h1
    obtain ⟨h2a, h2b⟩ := h2
    have hab : a.toNat = b.toNat := by omega
    have hchar : a = b := by
      have e1 := Char.ofNat_toNat a
      have e2 := Char.ofNat_toNat b
      rw [← e1, ← e2, hab]
    subst hchar
    rcases h1b with h1b | h1b
    · omega
    · rcases h2b with h2b | h2b
      · omega
      · rw [charsLT_connex as bs h1b h2b]

theorem toChars_inj {a b : Timestamp} (hva : Valid a) (hya : a.year ≤ 9999)
    (hvb : Valid b) (hyb : b.year ≤ 9999) (h : a.toChars = b.toChars) : a = b := by
  have h1 := newTimestamp_toChars hva hya
  rw [h, newTimestamp_toChars hvb hyb] at h1
  exact (Option.some.inj h1).symm

/-! ### The descending sort -/

theorem sortDesc_sorted (entries : List DirEntry) :
    List.Sorted entryGE (sortDesc entries) :=
  List.sorted_insertionSort entryGE entries

theorem sortDesc_perm (entries : List DirEntry) :
    List.Perm (sortDesc entries) entries :=
  List.perm_insertionSort entryGE entries

theorem filter_orderedInsert_neg (p : DirEntry → Bool) (x : DirEntry)
    (hx : p x = false) : ∀ l : List DirEntry,
    (List.orderedInsert entryGE x l).filter p = l.filter p
  | [] => by simp [hx]
  | y :: l => by
    rw [List.orderedInsert]
    split_ifs with hr
    · simp [List.filter_cons, hx]
    · simp only [List.filter_cons, filter_orderedInsert_neg p x hx l]

theorem filter_orderedInsert_pos (p : DirEntry → Bool) (x : DirEntry)
    (hx : p x = true) : ∀ l : List DirEntry, List.Sorted entryGE l →
    (List.orderedInsert entryGE x l).filter p =
      List.orderedInsert entryGE x (l.filter p)
  | [], _ => by simp [hx]
  | y :: l, hs => by
    have hsl : List.Sorted entryGE l := hs.of_cons
    rw [List.orderedInsert]
    split_ifs with hr
    · by_cases hy : p y = true
      · simp [List.filter_cons, hx, hy, List.orderedInsert, hr]
      · rw [List.filter_cons, if_pos hx, List.filter_cons, if_neg hy]
        cases hfl : l.filter p with
        | nil => simp
        | cons z zs =>
          have hz : z ∈ l.filter p := by rw [hfl]; exact List.mem_cons_self z zs
          have hzl : z ∈ l := List.mem_of_mem_filter hz
          have hyz : entryGE y z := List.rel_of_sorted_cons hs z hzl
          have hxz : entryGE x z := IsTrans.trans _ _ _ hr hyz
          rw [List.orderedInsert, if_pos hxz]
    · by_cases hy : p y = true
      · rw [List.filter_cons, if_pos hy, filter_orderedInsert_pos p x hx l hsl,
          List.filter_cons, if_pos hy, List.orderedInsert, if_neg hr]
      · rw [List.filter_cons, if_neg hy, filter_orderedInsert_pos p x hx l hsl,
          List.filter_cons, if_neg hy]

theorem filter_sortDesc (p : DirEntry → Bool) :
    ∀ l : List DirEntry, (sortDesc l).filter p = sortDesc (l.filter p)
  | [] => rfl
  | x :: l => by
    by_cases hx : p x = true
    · show (List.orderedInsert entryGE x (List.insertionSort entryGE l)).filter p = _
      rw [filter_orderedInsert_pos p x hx _ (List.sorted_insertionSort entryGE l),
        show (List.insertionSort entryGE l).filter p = sortDesc (l.filter p) from
          filter_sortDesc p l]
      show _ = List.insertionSort entryGE ((x :: l).filter p)
      rw [List.filter_cons, if_pos hx]
      rfl
    · show (List.orderedInsert entryGE x (List.insertionSort entryGE l)).filter p = _
      rw [filter_orderedInsert_neg p x (by revert hx; cases p x <;> simp),
        show (List.insertionSort entryGE l).filter p = sortDesc (l.filter p) from
          filter_sortDesc p l]
      show _ = List.insertionSort entryGE ((x :: l).filter p)
      rw [List.filter_cons, if_neg hx]
      rfl

theorem filterMap_filter_none (g : DirEntry → Option Timestamp)
    (p : DirEntry → Bool) (hg : ∀ x, p x = false → g x = none) :
    ∀ l : List DirEntry, (l.filter p).filterMap g = l.filterMap g
  | [] => rfl
  | x :: l => by
    rw [List.filter_cons]
    by_cases hx : p x = true
    · rw [if_pos hx, List.filterMap_cons, List.filterMap_cons,
        filterMap_filter_none g p hg l]
    · rw [if_neg hx, List.filterMap_cons,
        hg x (by revert hx; cases p x <;> simp), filterMap_filter_none g p hg l]

theorem filterMap_all_some {α : Type} (g : α → Option α) :
    ∀ l : List α, (∀ x ∈ l, g x = some x) → l.filterMap g = l
  | [], _ => rfl
  | x :: l, h => by
    rw [List.filterMap_cons, h x (List.mem_cons_self x l),
      filterMap_all_some g l (fun y hy => h y (List.mem_cons_of_mem x hy))]

theorem detect_mk (f : VFile) (mid ts : List Char) (hts : ∀ c ∈ ts, c ≠ '.') :
    detect (f.name ++ '.' :: (mid ++ '.' :: ts)) f =
      if mid = f.ext then
        (match newTimestamp ts with
         | some u => Except.ok u
         | none => Except.error DetectErr.badTimestamp)
      else .error .extMismatch := by
  unfold detect
  rw [if_pos (isPrefixOf_append _ _), List.drop_left]
  simp only [reduceIte]
  rw [splitOnDot_mid_ts _ _ hts]
  obtain ⟨e, es, he⟩ := splitOnDot_exists mid
  rw [if_neg (by rw [he]; simp), List.dropLast_concat, joinDot_splitOnDot,
    List.getLastD_concat]

theorem findFn_mk (f : VFile) (mid ts : List Char) (hts : ∀ c ∈ ts, c ≠ '.') :
    findFn f ⟨f.name ++ '.' :: (mid ++ '.' :: ts), false⟩ =
      if mid = f.ext then newTimestamp ts else none := by
  unfold findFn
  simp only [Bool.false_eq_true, if_false]
  rw [if_pos (isPrefixOf_append _ _)]
  simp only [List.drop_left]
  simp only [reduceIte]
  rw [splitOnDot_mid_ts _ _ hts]
  obtain ⟨e, es, he⟩ := splitOnDot_exists mid
  rw [if_neg (by rw [he]; simp), List.dropLast_concat, joinDot_splitOnDot,
    List.getLastD_concat]

theorem chunk2_lit (a b : Char) (r : List Char) :
    chunkVal (List.take 2 (a :: b :: r)) = digitVal a * 10 + digitVal b := by
  simp [chunkVal, List.take]

theorem chunk4_lit (a b c d : Char) (r : List Char) :
    chunkVal (List.take 4 (a :: b :: c :: d :: r)) =
      ((digitVal a * 10 + digitVal b) * 10 + digitVal c) * 10 + digitVal d := by
  simp [chunkVal, List.take]

/-- C6: NewTimestamp succeeds exactly on strings of 14 ASCII digits encoding
YYYYMMDDHHmmss whose month, day (validated against month and year), hour,
minute and second lie in valid calendar ranges; every other string yields a
parse error. -/
theorem c6_parse_iff_valid_encoding (s : List Char) :
    (newTimestamp s).isSome = true ↔ encodes14 s := by
  by_cases h14 : s.length = 14
  · obtain ⟨c1, c2, c3, c4, c5, c6, c7, c8, c9, c10, c11, c12, c13, c14, rfl⟩ :=
      exists14 s h14
    rw [show newTimestamp [c1, c2, c3, c4, c5, c6, c7, c8, c9, c10, c11, c12, c13, c14] =
        (if ([c1, c2, c3, c4, c5, c6, c7, c8, c9, c10, c11, c12, c13, c14].all isDigitCh)
        then checkRanges
          ⟨((digitVal c1 * 10 + digitVal c2) * 10 + digitVal c3) * 10 + digitVal c4,
            digitVal c5 * 10 + digitVal c6, digitVal c7 * 10 + digitVal c8,
            digitVal c9 * 10 + digitVal c10, digitVal c11 * 10 + digitVal c12,
            digitVal c13 * 10 + digitVal c14⟩
        else none) from rfl]
    split_ifs with hdig
    · unfold checkRanges
      split_ifs with hval
      · refine iff_of_true (by simp) ?_
        refine ⟨by simp, by rw [← List.all_eq_true]; exact hdig, ?_⟩
        simp only [List.drop_succ_cons, List.drop_zero, chunk2_lit, chunk4_lit]
        exact hval
      · refine iff_of_false (by simp) ?_
        rintro ⟨-, -, hr⟩
        apply hval
        simp only [List.drop_succ_cons, List.drop_zero, chunk2_lit, chunk4_lit] at hr
        exact hr
    · refine iff_of_false (by simp) ?_
      rintro ⟨-, hdigits, -⟩
      exact hdig (List.all_eq_true.mpr hdigits)
  · rw [newTimestamp_none_of_length h14]
    refine iff_of_false (by simp) ?_
    intro h
    exact h14 h.1

theorem versionFn_some {f : VFile} {e : DirEntry} {t : Timestamp}
    (h : versionFn f e = some t) : Valid t ∧ t.year ≤ 9999 := by
  unfold versionFn at h
  split_ifs at h with hpre
  split at h
  · cases h
  · split_ifs at h with hdot
    exact ⟨(newTimestamp_some h).2.2.1, (newTimestamp_some h).2.2.2.1⟩

theorem chronoLT_or (a b : Timestamp) (h : a ≠ b) : chronoLT a b ∨ chronoLT b a := by
  cases a with | mk a1 a2 a3 a4 a5 a6 =>
  cases b with | mk b1 b2 b3 b4 b5 b6 =>
  simp only [ne_eq, Timestamp.mk.injEq] at h
  unfold chronoLT
  dsimp only
  omega

theorem name_split (f : VFile) (t : Timestamp) :
    f.name ++ '.' :: (f.ext ++ '.' :: t.toChars) =
      (f.name ++ '.' :: (f.ext ++ ['.'])) ++ t.toChars := by
  simp [List.append_assoc]

/-- C2 (amended): for any directory listing whose matched entries (those
passing Versions' loose check) all have the form name.ext.timestamp with
the file's own name and extension and pairwise distinct timestamps — other,
unmatched entries arbitrary — Versions returns exactly the matched
timestamps, in strictly descending chronological order. In particular this
covers the listing produced by N sequential writes of the same file.
(Unamended, the order claim fails when matched entries carry different
extensions: see the counterexample.) -/
theorem c2_versions_newest_first_amended (f : VFile) (entries : List DirEntry)
    (hshape : ∀ e ∈ entries, ∀ t ∈ versionFn f e,
      e.name = f.name ++ '.' :: (f.ext ++ '.' :: t.toChars))
    (hnd : (entries.filterMap (versionFn f)).Nodup) :
    List.Perm (versionsList f entries) (entries.filterMap (versionFn f)) ∧
    List.Pairwise (fun a b => chronoLT b a) (versionsList f entries) := by
  have hperm : List.Perm (versionsList f entries)
      (entries.filterMap (versionFn f)) :=
    (sortDesc_perm entries).filterMap (versionFn f)
  refine ⟨hperm, ?_⟩
  have hndout : (versionsList f entries).Nodup := hperm.nodup_iff.mpr hnd
  have hS : List.Pairwise
      (fun e e2 => ∀ ta ∈ versionFn f e, ∀ tb ∈ versionFn f e2, ¬ chronoLT ta tb)
      (sortDesc entries) := by
    refine (sortDesc_sorted entries).imp_of_mem ?_
    intro a b ha hb hab ta hta tb htb
    have ha2 : a ∈ entries := (sortDesc_perm entries).subset ha
    have hb2 : b ∈ entries := (sortDesc_perm entries).subset hb
    have hta2 : versionFn f a = some ta := Option.mem_def.mp hta
    have htb2 : versionFn f b = some tb := Option.mem_def.mp htb
    have hna := hshape a ha2 ta hta
    have hnb := hshape b hb2 tb htb
    have hva := versionFn_some hta2
    have hvb := versionFn_some htb2
    unfold entryGE at hab
    rw [hna, hnb, name_split, name_split, charsLT_append_left] at hab
    intro hlt
    have hcontra := (charsLT_toChars_iff hva.1 hvb.1 hva.2 hvb.2).mpr hlt
    rw [hab] at hcontra
    exact absurd hcontra (by decide)
  have hpair : List.Pairwise (fun ta tb => ¬ chronoLT ta tb)
      (versionsList f entries) := List.pairwise_filterMap.mpr hS
  have hcomb := hpair.and hndout
  exact hcomb.imp (fun hx => (chronoLT_or _ _ hx.2).resolve_left hx.1)

theorem detect_mk2 (d nm ext mid ts : List Char) (hts : ∀ c ∈ ts, c ≠ '.') :
    detect (nm ++ '.' :: (mid ++ '.' :: ts)) ⟨d, nm, ext⟩ =
      if mid = ext then
        (match newTimestamp ts with
         | some u => Except.ok u
         | none => Except.error DetectErr.badTimestamp)
      else .error .extMismatch :=
  detect_mk ⟨d, nm, ext⟩ mid ts hts

theorem findFn_mk2 (d nm ext mid ts : List Char) (hts : ∀ c ∈ ts, c ≠ '.') :
    findFn ⟨d, nm, ext⟩ ⟨nm ++ '.' :: (mid ++ '.' :: ts), false⟩ =
      if mid = ext then newTimestamp ts else none :=
  findFn_mk ⟨d, nm, ext⟩ mid ts hts

/-- C1: for every file and every timestamp whose canonical form is a valid
14-digit encoding, the encoded path is directory, slash, basename, and
Detect applied to the basename portion succeeds and returns a timestamp
with the same canonical 14-digit string. -/
theorem c1_path_detect_roundtrip (f : VFile) (t : Timestamp) (hv : Valid t)
    (hy : t.year ≤ 9999) :
    vPath f t = f.dir ++ '/' :: vBasename f t ∧ detect (vBasename f t) f = .ok t :=
  ⟨rfl, detect_basename f t hv hy⟩

theorem c1_path_detect_roundtrip_witness :
    Valid ⟨2023, 10, 19, 14, 5, 23⟩ ∧ (2023 : Nat) ≤ 9999 ∧
      (vPath ⟨"2023/league".toList, "league".toList, "txt".toList⟩
          ⟨2023, 10, 19, 14, 5, 23⟩ =
        "2023/league".toList ++ '/' ::
          vBasename ⟨"2023/league".toList, "league".toList, "txt".toList⟩
            ⟨2023, 10, 19, 14, 5, 23⟩ ∧
      detect (vBasename ⟨"2023/league".toList, "league".toList, "txt".toList⟩
          ⟨2023, 10, 19, 14, 5, 23⟩)
        ⟨"2023/league".toList, "league".toList, "txt".toList⟩ =
          .ok ⟨2023, 10, 19, 14, 5, 23⟩) :=
  ⟨by decide, by decide, c1_path_detect_roundtrip _ _ (by decide) (by decide)⟩

/-- C2 (counterexample): a directory listing whose matched entries carry
different extensions makes Versions return timestamps out of chronological
order — filename-descending is not timestamp-descending there, refuting the
claim for arbitrary listings. -/
theorem c2_versions_order_counterexample :
    versionsList ⟨"2023/league".toList, "league".toList, "txt".toList⟩
        [⟨"league.a.20240101000000".toList, false⟩,
         ⟨"league.b.20230101000000".toList, false⟩] =
      [⟨2023, 1, 1, 0, 0, 0⟩, ⟨2024, 1, 1, 0, 0, 0⟩] ∧
    chronoLT ⟨2023, 1, 1, 0, 0, 0⟩ ⟨2024, 1, 1, 0, 0, 0⟩ := by decide

theorem c2_versions_newest_first_amended_witness :
    List.Perm
      (versionsList ⟨"2023/league".toList, "league".toList, "txt".toList⟩
        [⟨"league.txt.20231019140523".toList, false⟩,
         ⟨"roster-3.json.20231019140523".toList, false⟩,
         ⟨"league.subdir".toList, true⟩,
         ⟨"league.txt.20211125011947".toList, false⟩])
      ([⟨"league.txt.20231019140523".toList, false⟩,
        ⟨"roster-3.json.20231019140523".toList, false⟩,
        ⟨"league.subdir".toList, true⟩,
        ⟨"league.txt.20211125011947".toList, false⟩].filterMap
        (versionFn ⟨"2023/league".toList, "league".toList, "txt".toList⟩)) ∧
    List.Pairwise (fun a b => chronoLT b a)
      (versionsList ⟨"2023/league".toList, "league".toList, "txt".toList⟩
        [⟨"league.txt.20231019140523".toList, false⟩,
         ⟨"roster-3.json.20231019140523".toList, false⟩,
         ⟨"league.subdir".toList, true⟩,
         ⟨"league.txt.20211125011947".toList, false⟩]) :=
  c2_versions_newest_first_amended ⟨"2023/league".toList, "league".toList, "txt".toList⟩
    [⟨"league.txt.20231019140523".toList, false⟩,
     ⟨"roster-3.json.20231019140523".toList, false⟩,
     ⟨"league.subdir".toList, true⟩,
     ⟨"league.txt.20211125011947".toList, false⟩] (by decide) (by decide)

/-- C3 (counterexample): Versions has no directory check, so a directory
entry named baseName.ext.validTimestamp does contribute a timestamp,
refuting the claim for Versions. -/
theorem c3_versions_directory_counterexample :
    versionsList ⟨"2023/league".toList, "league".toList, "txt".toList⟩
        [⟨"league.txt.20231019140523".toList, true⟩] =
      [⟨2023, 10, 19, 14, 5, 23⟩] := by decide

/-- C3 (amended): Find never takes a timestamp from a directory entry,
whatever the entry's name shape: deleting all directory entries from the
listing leaves Find's result unchanged. (Versions, by contrast, ignores
the directory flag — see the counterexample.) -/
theorem c3_find_skips_directories_amended (f : VFile) (entries : List DirEntry) :
    findList f (entries.filter fun e => !e.isDir) = findList f entries := by
  unfold findList
  rw [← filter_sortDesc]
  apply filterMap_filter_none
  intro x hx
  have hdir : x.isDir = true := by
    revert hx
    cases x.isDir <;> simp
  unfold findFn
  rw [if_pos hdir]

/-- C4 (counterexample): NewFromTime accepts any instant; from year 10000
on the canonical string grows past 14 digits and string order diverges from
chronological order, refuting the claim as stated. -/
theorem c4_canonical_order_counterexample :
    Valid ⟨9999, 12, 31, 23, 59, 59⟩ ∧ Valid ⟨10000, 1, 1, 0, 0, 0⟩ ∧
      charsLT (Timestamp.toChars ⟨10000, 1, 1, 0, 0, 0⟩)
          (Timestamp.toChars ⟨9999, 12, 31, 23, 59, 59⟩) = true ∧
      ¬ chronoLT ⟨10000, 1, 1, 0, 0, 0⟩ ⟨9999, 12, 31, 23, 59, 59⟩ := by decide

/-- C4 (amended): for any two valid timestamps whose years stay within
0–9999 (where the canonical form really is 14 digits), the canonical string
of t1 exceeds that of t2 in byte order exactly when t1 chronologically
follows t2. -/
theorem c4_canonical_order_amended (t1 t2 : Timestamp) (hv1 : Valid t1)
    (hv2 : Valid t2) (hy1 : t1.year ≤ 9999) (hy2 : t2.year ≤ 9999) :
    (charsLT t2.toChars t1.toChars = true ↔ chronoLT t2 t1) :=
  charsLT_toChars_iff hv2 hv1 hy2 hy1

theorem c4_canonical_order_amended_witness :
    (charsLT (Timestamp.toChars ⟨2021, 11, 25, 1, 19, 47⟩)
        (Timestamp.toChars ⟨2023, 10, 19, 14, 5, 23⟩) = true ↔
      chronoLT ⟨2021, 11, 25, 1, 19, 47⟩ ⟨2023, 10, 19, 14, 5, 23⟩) :=
  c4_canonical_order_amended ⟨2023, 10, 19, 14, 5, 23⟩ ⟨2021, 11, 25, 1, 19, 47⟩
    (by decide) (by decide) (by decide) (by decide)

/-- C5: multi-segment extension matching is exact and order-sensitive: with
expected extension csv.gz, Detect and Find accept name.csv.gz.ts and reject
name.csv.ts and name.gz.csv.ts (extension mismatch). -/
theorem c5_multisegment_extension (d nm ts : List Char) (t : Timestamp)
    (hts : newTimestamp ts = some t) :
    detect (nm ++ '.' :: ("csv.gz".toList ++ '.' :: ts)) ⟨d, nm, "csv.gz".toList⟩ =
        .ok t ∧
    detect (nm ++ '.' :: ("csv".toList ++ '.' :: ts)) ⟨d, nm, "csv.gz".toList⟩ =
        .error .extMismatch ∧
    detect (nm ++ '.' :: ("gz.csv".toList ++ '.' :: ts)) ⟨d, nm, "csv.gz".toList⟩ =
        .error .extMismatch ∧
    findFn ⟨d, nm, "csv.gz".toList⟩
        ⟨nm ++ '.' :: ("csv.gz".toList ++ '.' :: ts), false⟩ = some t ∧
    findFn ⟨d, nm, "csv.gz".toList⟩
        ⟨nm ++ '.' :: ("csv".toList ++ '.' :: ts), false⟩ = none ∧
    findFn ⟨d, nm, "csv.gz".toList⟩
        ⟨nm ++ '.' :: ("gz.csv".toList ++ '.' :: ts), false⟩ = none := by
  have hdig : ∀ c ∈ ts, isDigitCh c = true := (newTimestamp_some hts).2.1
  have hnd : ∀ c ∈ ts, c ≠ '.' := fun c hc => digit_ne_dot (hdig c hc)
  refine ⟨?_, ?_, ?_, ?_, ?_, ?_⟩
  · rw [detect_mk2 d nm ("csv.gz".toList) ("csv.gz".toList) ts hnd, if_pos rfl, hts]
  · rw [detect_mk2 d nm ("csv.gz".toList) ("csv".toList) ts hnd, if_neg (by decide)]
  · rw [detect_mk2 d nm ("csv.gz".toList) ("gz.csv".toList) ts hnd, if_neg (by decide)]
  · rw [findFn_mk2 d nm ("csv.gz".toList) ("csv.gz".toList) ts hnd, if_pos rfl, hts]
  · rw [findFn_mk2 d nm ("csv.gz".toList) ("csv".toList) ts hnd, if_neg (by decide)]
  · rw [findFn_mk2 d nm ("csv.gz".toList) ("gz.csv".toList) ts hnd, if_neg (by decide)]

theorem c5_multisegment_extension_witness :
    newTimestamp ("20211125011947".toList) = some ⟨2021, 11, 25, 1, 19, 47⟩ ∧
    detect ("themes".toList ++ '.' :: ("csv.gz".toList ++ '.' ::
        "20211125011947".toList))
      ⟨"catalog".toList, "themes".toList, "csv.gz".toList⟩ =
        .ok ⟨2021, 11, 25, 1, 19, 47⟩ :=
  ⟨by decide,
    (c5_multisegment_extension ("catalog".toList) ("themes".toList)
      ("20211125011947".toList) ⟨2021, 11, 25, 1, 19, 47⟩ (by decide)).1⟩

/-- C7: a missing directory is not an error for the scans: Versions and Find
both map a not-exist listing failure to an empty sequence and no error,
while any other filesystem error is propagated unchanged. -/
theorem c7_missing_directory_empty (f : VFile) (n : Nat) :
    versionsOp (.error .notExist) f = .ok [] ∧
    findOp (.error .notExist) f = .ok [] ∧
    versionsOp (.error (.other n)) f = .error (.other n) ∧
    findOp (.error (.other n)) f = .error (.other n) :=
  ⟨rfl, rfl, rfl, rfl⟩

/-- C8: LastVersion returns the first element of Versions when the sequence
is non-empty, and the distinct ErrNoVersions sentinel — not a filesystem
error and not a timestamp — when Versions is empty without error. -/
theorem c8_lastVersion_spec (r : Except FsError (List DirEntry)) (f : VFile) :
    (∀ t rest, versionsOp r f = .ok (t :: rest) → lastVersionOp r f = .ok t) ∧
    (versionsOp r f = .ok [] → lastVersionOp r f = .error .noVersions) ∧
    (∀ e : FsError, VersionsErr.noVersions ≠ VersionsErr.fs e) := by
  refine ⟨?_, ?_, fun e h => by cases h⟩
  · intro t rest h
    unfold lastVersionOp
    rw [h]
  · intro h
    unfold lastVersionOp
    rw [h]

theorem c8_lastVersion_spec_witness :
    lastVersionOp (.ok [⟨"league.txt.20231019140523".toList, false⟩])
        ⟨"2023/league".toList, "league".toList, "txt".toList⟩ =
      .ok ⟨2023, 10, 19, 14, 5, 23⟩ ∧
    lastVersionOp (.ok [])
        ⟨"2023/league".toList, "league".toList, "txt".toList⟩ =
      .error .noVersions :=
  ⟨(c8_lastVersion_spec (.ok [⟨"league.txt.20231019140523".toList, false⟩])
      ⟨"2023/league".toList, "league".toList, "txt".toList⟩).1
      ⟨2023, 10, 19, 14, 5, 23⟩ [] (by rfl),
    (c8_lastVersion_spec (.ok [])
      ⟨"2023/league".toList, "league".toList, "txt".toList⟩).2.1 (by rfl)⟩

/-- C9: the two shipped Path implementations disagree: versionfs.Path emits
directory/name.ext.timestamp while localfs.Path emits
directory/name.timestamp.ext, so they are not equal as functions — contrary
to the claim and to the localfs package's own README and test, which assert
the name.ext.timestamp shape. -/
theorem c9_localfs_path_divergence :
    vPath ⟨"2023/league".toList, "league".toList, "txt".toList⟩
        ⟨2021, 11, 25, 1, 19, 47⟩ = "2023/league/league.txt.20211125011947".toList ∧
    lPath ⟨"2023/league".toList, "league".toList, "txt".toList⟩
        ⟨2021, 11, 25, 1, 19, 47⟩ = "2023/league/league.20211125011947.txt".toList ∧
    lPath ⟨"2023/league".toList, "league".toList, "txt".toList⟩
        ⟨2021, 11, 25, 1, 19, 47⟩ ≠
      vPath ⟨"2023/league".toList, "league".toList, "txt".toList⟩
        ⟨2021, 11, 25, 1, 19, 47⟩ := by decide

/-- C10: every timestamp Find reports is also reported by Versions over the
same listing, in the same relative order: Find's full match implies
Versions' looser match entry by entry, so Find's output is a subsequence of
Versions' output. -/
theorem c10_find_sublist_of_versions (f : VFile) (entries : List DirEntry) :
    List.Sublist (findList f entries) (versionsList f entries) :=
  filterMap_sublist (findFn f) (versionFn f) (findFn_imp_versionFn f)
    (sortDesc entries)

end VersionFS
